import Mathlib

/-!
Verification development for the log-ratio change-detection pipeline of
`Capella-Log-Ratio-Change-Detection-Example-Using-API-and-TileDB.ipynb`.

The numeric core of the notebook (cells 5 and 10) is embedded shallowly:

* IEEE-754 double values are modelled exactly by `FV`: either NaN, one of the
  two infinities, or a finite value represented as an exact rational.
  Rounding and overflow are not modelled (none of the computations considered
  here depend on them); signed zero is collapsed to a single zero, with `0`
  treated as `+0` where a sign matters (division).
* 2-D `numpy` arrays of shape `m × n` are `Grid m n := Fin m → Fin n → FV`.
* `scipy.ndimage` operations (`uniform_filter`, `variance`,
  `morphology.grey_opening`) and the `numpy` reductions (`np.nanmean`,
  `np.nanstd`) are translated from their documented semantics with the
  default boundary mode `reflect`, exactly as the notebook calls them.
* The pair loop of cell 10 becomes `accumulate`; a Python variable that is
  never bound (the accumulator `cd` when the loop body never runs) is
  modelled as `Option.none`.

The notebook's free-standing constants `THRSET`, `FILTSIZE`, `MORPHWINSIZE`
appear as explicit parameters (`k`, `sw`, `mw`) of the corresponding
functions; the notebook instantiates them with `2`, `3`, `3`.

Two real-valued transcendental functions occur in the pipeline: `np.log`
(on positive finite arguments) and the square root inside `np.nanstd`.
Their finite-positive branches are taken as parameters `lg sq : ℚ → ℚ` of
the embedding; theorems that depend on particular values of them carry
hypotheses recording true facts about the real functions (for example
`lg 1 = 0` for `ln 1 = 0`, or `sq 4 = 2` for `√4 = 2`).  The non-finite
branches (`log` of NaN, of a negative number, of `0`, of `±∞`; square root
of a negative number) follow IEEE/numpy semantics and are built into
`flog` and `fsqrt` directly.
-/

/-- Model of an IEEE-754 double: NaN, `+∞`, `-∞`, or a finite value
(an exact rational; rounding is not modelled). -/
inductive FV where
  | nan : FV
  | pinf : FV
  | ninf : FV
  | fin : ℚ → FV
deriving DecidableEq

namespace FV

/-- IEEE negation. -/
def fneg : FV → FV
  | nan => nan
  | pinf => ninf
  | ninf => pinf
  | fin a => fin (-a)

/-- IEEE addition: NaN is absorbing, `+∞ + -∞ = NaN`. -/
def fadd : FV → FV → FV
  | nan, _ => nan
  | _, nan => nan
  | pinf, ninf => nan
  | ninf, pinf => nan
  | pinf, _ => pinf
  | _, pinf => pinf
  | ninf, _ => ninf
  | _, ninf => ninf
  | fin a, fin b => fin (a + b)

/-- IEEE subtraction, `a - b = a + (-b)`. -/
def fsub (a b : FV) : FV := fadd a (fneg b)

/-- IEEE multiplication: NaN absorbing, `±∞ * 0 = NaN`, sign rules for
infinities. -/
def fmul : FV → FV → FV
  | nan, _ => nan
  | _, nan => nan
  | pinf, pinf => pinf
  | pinf, ninf => ninf
  | ninf, pinf => ninf
  | ninf, ninf => pinf
  | pinf, fin b => if 0 < b then pinf else if b < 0 then ninf else nan
  | fin a, pinf => if 0 < a then pinf else if a < 0 then ninf else nan
  | ninf, fin b => if 0 < b then ninf else if b < 0 then pinf else nan
  | fin a, ninf => if 0 < a then ninf else if a < 0 then pinf else nan
  | fin a, fin b => fin (a * b)

/-- IEEE division (zero treated as `+0`): NaN absorbing, `∞/∞ = NaN`,
`x/±∞ = 0`, finite `a/0` is `NaN` for `a = 0` and a signed infinity
otherwise. -/
def fdiv : FV → FV → FV
  | nan, _ => nan
  | _, nan => nan
  | pinf, pinf => nan
  | pinf, ninf => nan
  | ninf, pinf => nan
  | ninf, ninf => nan
  | pinf, fin b => if b < 0 then ninf else pinf
  | ninf, fin b => if b < 0 then pinf else ninf
  | fin _, pinf => fin 0
  | fin _, ninf => fin 0
  | fin a, fin b =>
      if b = 0 then (if a = 0 then nan else if 0 < a then pinf else ninf)
      else fin (a / b)

/-- IEEE ordered strict comparison `<`: any comparison with NaN is false. -/
def flt : FV → FV → Bool
  | nan, _ => false
  | _, nan => false
  | ninf, ninf => false
  | ninf, _ => true
  | _, ninf => false
  | pinf, _ => false
  | _, pinf => true
  | fin a, fin b => decide (a < b)

/-- True unless the value is NaN. -/
def notNan : FV → Bool
  | nan => false
  | _ => true

/-- Model of `np.log`, given the finite-positive branch `lg`: `log NaN = NaN`,
`log (+∞) = +∞`, `log (-∞) = NaN`, `log 0 = -∞`, `log` of a negative
number is NaN. -/
def flog (lg : ℚ → ℚ) : FV → FV
  | nan => nan
  | pinf => pinf
  | ninf => nan
  | fin a => if 0 < a then fin (lg a) else if a = 0 then ninf else nan

/-- Square root, given the finite-nonnegative branch `sq`:
`√NaN = NaN`, `√(+∞) = +∞`, `√(-∞) = NaN`, negative arguments give NaN. -/
def fsqrt (sq : ℚ → ℚ) : FV → FV
  | nan => nan
  | pinf => pinf
  | ninf => nan
  | fin a => if a < 0 then nan else fin (sq a)

/-- Binary minimum as computed by a comparison-based filter: keeps the
second argument when the first is not strictly smaller. -/
def fmin (a b : FV) : FV := if flt a b then a else b

/-- Binary maximum as computed by a comparison-based filter: keeps the
second argument when the first is not strictly larger. -/
def fmax (a b : FV) : FV := if flt b a then a else b

instance : Zero FV := ⟨fin 0⟩
instance : Add FV := ⟨fadd⟩
instance : Sub FV := ⟨fsub⟩
instance : Mul FV := ⟨fmul⟩
instance : Div FV := ⟨fdiv⟩
instance : Neg FV := ⟨fneg⟩

instance : AddCommMonoid FV where
  add_assoc a b c := by
    show fadd (fadd a b) c = fadd a (fadd b c)
    cases a <;> cases b <;> cases c <;> simp [fadd, add_assoc]
  zero_add a := by
    show fadd (fin 0) a = a
    cases a <;> simp [fadd]
  add_zero a := by
    show fadd a (fin 0) = a
    cases a <;> simp [fadd]
  add_comm a b := by
    show fadd a b = fadd b a
    cases a <;> cases b <;> simp [fadd, add_comm]
  nsmul := nsmulRec

end FV

open FV

/-- A 2-D array of shape `m × n` (a `numpy` float array). -/
abbrev Grid (m n : ℕ) := Fin m → Fin n → FV

/-- The constant grid. -/
def constGrid (m n : ℕ) (v : FV) : Grid m n := fun _ _ => v

/-- The `scipy.ndimage` boundary mode `reflect` (the default used by
`uniform_filter`, `grey_erosion` and `grey_dilation` in the notebook):
an out-of-range index into an axis of length `m` is mapped back into
range following the pattern `(d c b a | a b c d | d c b a)`, which is
periodic with period `2m`. -/
def reflectIdx (m : ℕ) (i : ℤ) : ℤ :=
  if i % (2 * (m : ℤ)) < (m : ℤ) then i % (2 * (m : ℤ))
  else 2 * (m : ℤ) - 1 - i % (2 * (m : ℤ))

/-- Index into an axis of length `m` with `reflect` boundary handling. -/
def finIdx (m : ℕ) [NeZero m] (i : ℤ) : Fin m :=
  ⟨(reflectIdx m i).toNat, by
    have hm : 0 < m := Nat.pos_of_ne_zero (NeZero.ne m)
    have h2m : (0 : ℤ) < 2 * (m : ℤ) := by positivity
    have h0 : 0 ≤ i % (2 * (m : ℤ)) := Int.emod_nonneg i (by omega)
    have h1 : i % (2 * (m : ℤ)) < 2 * (m : ℤ) := Int.emod_lt_of_pos i h2m
    unfold reflectIdx
    split <;> omega⟩

/-- Centered window offsets used by the `scipy.ndimage` filters for a
window of side `s` with the default origin `0`: positions
`t - s / 2` for `t < s` (for odd `s` this is the symmetric range
`-(s-1)/2 … (s-1)/2`). -/
def offs (s : ℕ) : List ℤ :=
  (List.range s).map fun (t : ℕ) => (t : ℤ) - ((s / 2 : ℕ) : ℤ)

/-- Mirrored window offsets: `grey_dilation` mirrors the structuring
element (and negates the origin), so its offsets are the negations of the
erosion offsets. -/
def offsD (s : ℕ) : List ℤ := (offs s).map fun (z : ℤ) => -z

/-- The list of values of `g` inside the window of side `s` centered (via
the erosion/uniform-filter offsets) at `(i, j)`, with `reflect` boundary
handling. -/
def windowE {m n : ℕ} [NeZero m] [NeZero n] (s : ℕ) (g : Grid m n)
    (i : Fin m) (j : Fin n) : List FV :=
  (offs s).flatMap fun oi => (offs s).map fun oj =>
    g (finIdx m ((i : ℤ) + oi)) (finIdx n ((j : ℤ) + oj))

/-- Window values with the mirrored (dilation) offsets. -/
def windowD {m n : ℕ} [NeZero m] [NeZero n] (s : ℕ) (g : Grid m n)
    (i : Fin m) (j : Fin n) : List FV :=
  (offsD s).flatMap fun oi => (offsD s).map fun oj =>
    g (finIdx m ((i : ℤ) + oi)) (finIdx n ((j : ℤ) + oj))

/-- Sum of a list of float values. -/
def fvSum (l : List FV) : FV := l.foldl fadd (fin 0)

/-- Minimum of a list of float values, as computed by a comparison-based
filter scanning left to right (the empty case never occurs for a window
of positive side). -/
def fvMinL : List FV → FV
  | [] => nan
  | x :: xs => xs.foldl fmin x

/-- Maximum of a list of float values, scanning left to right. -/
def fvMaxL : List FV → FV
  | [] => nan
  | x :: xs => xs.foldl fmax x

/-- Model of `scipy.ndimage.filters.uniform_filter` with square window `(s, s)`,
default mode `reflect`: the box average of the window (exact arithmetic:
the separable implementation and the direct window mean agree). -/
def uniform_filter {m n : ℕ} [NeZero m] [NeZero n] (s : ℕ) (g : Grid m n) :
    Grid m n :=
  fun i j => fdiv (fvSum (windowE s g i j)) (fin ((s * s : ℕ) : ℚ))

/-- All samples of a grid, row-major. -/
def allPixels {m n : ℕ} (g : Grid m n) : List FV :=
  (List.finRange m).flatMap fun i => (List.finRange n).map fun j => g i j

/-- Mean of a list of float values (`sum / length`). -/
def fvMean (l : List FV) : FV := fdiv (fvSum l) (fin (l.length : ℚ))

/-- Model of `scipy.ndimage.measurements.variance` over the whole array: the
population variance, the mean of the squared deviations from the mean. -/
def variance {m n : ℕ} (g : Grid m n) : FV :=
  let μ := fvMean (allPixels g)
  fvMean ((allPixels g).map fun v => fmul (fsub v μ) (fsub v μ))

/-- The speckle filter of cell 5 of the notebook:

```
def lee_filter(img, size):
    img_mean = uniform_filter(img, (size, size))
    img_sqr_mean = uniform_filter(img**2, (size, size))
    img_variance = img_sqr_mean - img_mean**2
    overall_variance = variance(img)
    img_weights = img_variance / (img_variance + overall_variance)
    img_output = img_mean + img_weights * (img - img_mean)
    return img_output
```
-/
def lee_filter {m n : ℕ} [NeZero m] [NeZero n] (size : ℕ) (img : Grid m n) :
    Grid m n :=
  let img_mean := uniform_filter size img
  let img_sqr_mean := uniform_filter size (img * img)
  let img_variance := img_sqr_mean - img_mean * img_mean
  let overall_variance := variance img
  let img_weights := img_variance / (img_variance + constGrid m n overall_variance)
  img_mean + img_weights * (img - img_mean)

/-- The adaptive-weight grid `img_weights` of `lee_filter`, exposed for the
statements about the degenerate flat-image case. -/
def lee_weights {m n : ℕ} [NeZero m] [NeZero n] (size : ℕ) (img : Grid m n) :
    Grid m n :=
  let img_mean := uniform_filter size img
  let img_sqr_mean := uniform_filter size (img * img)
  let img_variance := img_sqr_mean - img_mean * img_mean
  img_variance / (img_variance + constGrid m n (variance img))

/-- The denominator `img_variance + overall_variance` of the adaptive
weight in `lee_filter`, exposed for the statements about the degenerate
flat-image case. -/
def lee_denominator {m n : ℕ} [NeZero m] [NeZero n] (size : ℕ) (img : Grid m n) :
    Grid m n :=
  let img_mean := uniform_filter size img
  let img_sqr_mean := uniform_filter size (img * img)
  let img_variance := img_sqr_mean - img_mean * img_mean
  img_variance + constGrid m n (variance img)

/-- Model of `np.nanmean`: the mean of the non-NaN samples (NaN when there are
none, matching numpy's warning-plus-NaN behaviour). -/
def nanmean {m n : ℕ} (g : Grid m n) : FV :=
  let vs := (allPixels g).filter notNan
  fdiv (fvSum vs) (fin (vs.length : ℚ))

/-- Model of `np.nanstd`: the square root of the mean of the squared deviations
from `nanmean`, taken over the samples that are not NaN in the input. -/
def nanstd {m n : ℕ} (sq : ℚ → ℚ) (g : Grid m n) : FV :=
  let μ := nanmean g
  let vs := (allPixels g).filter notNan
  fsqrt sq (fdiv (fvSum (vs.map fun v => fmul (fsub v μ) (fsub v μ)))
    (fin (vs.length : ℚ)))

/-- The elementwise log ratio of cell 10: `dIx = np.log(img2/img1)`. -/
def logRatio {m n : ℕ} (lg : ℚ → ℚ) (img1 img2 : Grid m n) : Grid m n :=
  fun i j => flog lg (fdiv (img2 i j) (img1 i j))

/-- The adaptive threshold of cell 10:
`thr = np.nanmean(dIx) + THRSET*np.nanstd(dIx)`. -/
def threshOf {m n : ℕ} (sq : ℚ → ℚ) (k : ℚ) (d : Grid m n) : FV :=
  fadd (nanmean d) (fmul (fin k) (nanstd sq d))

/-- First in-place masked assignment of cell 10: `dIx[dIx < thr] = 0.0`. -/
def pass1 {m n : ℕ} (d : Grid m n) (t : FV) : Grid m n :=
  fun i j => if flt (d i j) t then fin 0 else d i j

/-- Second in-place masked assignment of cell 10: `dIx[dIx > thr] = 1.0`
(evaluated on the array already modified by `pass1`). -/
def pass2 {m n : ℕ} (d : Grid m n) (t : FV) : Grid m n :=
  fun i j => if flt t (d i j) then fin 1 else d i j

/-- The complete thresholding of cell 10: compute the threshold from the
log-ratio array, then apply the two sequential masked assignments. -/
def thresholdStage {m n : ℕ} (sq : ℚ → ℚ) (k : ℚ) (d : Grid m n) : Grid m n :=
  pass2 (pass1 d (threshOf sq k d)) (threshOf sq k d)

/-- Change detection for one pair, as in cell 10: log ratio followed by
thresholding. -/
def detectChange {m n : ℕ} (lg sq : ℚ → ℚ) (k : ℚ) (img1 img2 : Grid m n) :
    Grid m n :=
  thresholdStage sq k (logRatio lg img1 img2)

/-- Model of `scipy.ndimage.morphology.grey_erosion` with a square `s × s`
structuring element, mode `reflect`: the window minimum. -/
def grey_erosion {m n : ℕ} [NeZero m] [NeZero n] (s : ℕ) (g : Grid m n) :
    Grid m n :=
  fun i j => fvMinL (windowE s g i j)

/-- Model of `scipy.ndimage.morphology.grey_dilation` with a square `s × s`
structuring element, mode `reflect`: the window maximum over the mirrored
structuring element. -/
def grey_dilation {m n : ℕ} [NeZero m] [NeZero n] (s : ℕ) (g : Grid m n) :
    Grid m n :=
  fun i j => fvMaxL (windowD s g i j)

/-- Model of `scipy.ndimage.morphology.grey_opening` with square size `(s, s)`:
erosion followed by dilation. -/
def grey_opening {m n : ℕ} [NeZero m] [NeZero n] (s : ℕ) (g : Grid m n) :
    Grid m n :=
  grey_dilation s (grey_erosion s g)

/-- The per-pair computation of the loop body of cell 10: speckle filter
both rasters, detect change, morphologically open. -/
def cleanedMap {m n : ℕ} [NeZero m] [NeZero n] (lg sq : ℚ → ℚ)
    (sw : ℕ) (k : ℚ) (mw : ℕ) (a b : Grid m n) : Grid m n :=
  grey_opening mw (detectChange lg sq k (lee_filter sw a) (lee_filter sw b))

/-- The overlapping consecutive pairs `(rs[i], rs[i+1])` visited by
`for i in range(0, len(features) - 1)`. -/
def consecPairs {α : Type} : List α → List (α × α)
  | [] => []
  | [_] => []
  | a :: b :: t => (a, b) :: consecPairs (b :: t)

/-- The per-pair cleaned change maps of a raster sequence, in order. -/
def pairMaps {m n : ℕ} [NeZero m] [NeZero n] (lg sq : ℚ → ℚ)
    (sw : ℕ) (k : ℚ) (mw : ℕ) (rs : List (Grid m n)) : List (Grid m n) :=
  (consecPairs rs).map fun p => cleanedMap lg sq sw k mw p.1 p.2

/-- The accumulator of cell 10: `cd = dIx` on the first iteration, then
`cd += dIx`.  When the loop body never runs (fewer than two rasters) the
Python variable `cd` is never bound, modelled as `none`. -/
def accumulate {m n : ℕ} [NeZero m] [NeZero n] (lg sq : ℚ → ℚ)
    (sw : ℕ) (k : ℚ) (mw : ℕ) (rs : List (Grid m n)) : Option (Grid m n) :=
  match pairMaps lg sq sw k mw rs with
  | [] => none
  | m0 :: ms => some (ms.foldl (· + ·) m0)

/-- Modelled from the spec (§9, design note on binarization); this is the
snapshot-based single-pass semantics the claims compare the code against:
`output[p] = 1.0 if d[p] > threshold else 0.0`, evaluated once per pixel
against the original values (NaN compares false, hence becomes `0.0`). -/
def snapshotBinarize {m n : ℕ} (d : Grid m n) (t : FV) : Grid m n :=
  fun i j => if flt t (d i j) then fin 1 else fin 0

/-- The shape semantics of the `numpy` elementwise operations at line
`dIx = np.log(img2/img1)` of cell 10: two axis lengths broadcast
together when they are equal or one of them is `1`; otherwise the
operation raises (`ValueError`). -/
def broadcastDim (a b : ℕ) : Option ℕ :=
  if a = b then some a else if a = 1 then some b else if b = 1 then some a else none

/-- Result shape of `img2/img1` for inputs of shapes `s1` and `s2`
(height, width); `none` models the raised `ValueError`. -/
def broadcastShape (s1 s2 : ℕ × ℕ) : Option (ℕ × ℕ) :=
  match broadcastDim s1.1 s2.1, broadcastDim s1.2 s2.2 with
  | some h, some w => some (h, w)
  | _, _ => none

/-! ### Grey opening: anti-extensivity machinery -/

/-- Minimum of a nonempty list of rationals, scanning left to right. -/
def qMinL : List ℚ → ℚ
  | [] => 0
  | x :: xs => xs.foldl min x

/-- Maximum of a nonempty list of rationals, scanning left to right. -/
def qMaxL : List ℚ → ℚ
  | [] => 0
  | x :: xs => xs.foldl max x

/-- The rational contents of an erosion window. -/
def windowQE {m n : ℕ} [NeZero m] [NeZero n] (s : ℕ) (G : Fin m → Fin n → ℚ)
    (i : Fin m) (j : Fin n) : List ℚ :=
  (offs s).flatMap fun oi => (offs s).map fun oj =>
    G (finIdx m ((i : ℤ) + oi)) (finIdx n ((j : ℤ) + oj))

/-- The rational contents of a dilation window. -/
def windowQD {m n : ℕ} [NeZero m] [NeZero n] (s : ℕ) (G : Fin m → Fin n → ℚ)
    (i : Fin m) (j : Fin n) : List ℚ :=
  (offsD s).flatMap fun oi => (offsD s).map fun oj =>
    G (finIdx m ((i : ℤ) + oi)) (finIdx n ((j : ℤ) + oj))

/-! ### Concrete rasters used by the claim theorems -/

/-- A flat (constant) finite raster, all samples `1`. -/
def gFlat : Grid 2 2 := constGrid 2 2 (fin 1)

/-- The spec's concrete scenario: `before = [[1,1],[1,1]]`. -/
def gBefore : Grid 2 2 := constGrid 2 2 (fin 1)

/-- The spec's concrete scenario: `after = [[2,2],[2,2]]`. -/
def gAfter : Grid 2 2 := constGrid 2 2 (fin 2)

/-- Raster `[[1,2],[3,4]]` (non-constant, strictly positive). -/
def gPos : Grid 2 2 := fun i j =>
  fin (if i.val = 0 then (if j.val = 0 then 1 else 2) else (if j.val = 0 then 3 else 4))

/-- Raster `[[-1,2],[3,4]]`: one negative sample, so the log ratio against
`gPos` is NaN at pixel `(0,0)` and `0` elsewhere. -/
def gNeg : Grid 2 2 := fun i j =>
  fin (if i.val = 0 then (if j.val = 0 then -1 else 2) else (if j.val = 0 then 3 else 4))

/-- The log-ratio array produced by `gPos, gNeg`: NaN at `(0,0)`, zero
elsewhere; also the change map the code computes from it. -/
def gNanZero : Grid 2 2 := fun i j => if i.val = 0 ∧ j.val = 0 then nan else fin 0

/-- A log-ratio array `[[-10,-10],[-6,-6]]` whose adaptive threshold
`mean + 2·stddev = -8 + 2·2 = -4` is negative. -/
def dNegThr : Grid 2 2 := fun i _ => fin (if i.val = 0 then -10 else -6)

theorem FV.zero_def : (0 : FV) = fin 0 := rfl

theorem FV.add_def (a b : FV) : a + b = fadd a b := rfl

theorem FV.mul_def (a b : FV) : a * b = fmul a b := rfl

theorem FV.sub_def (a b : FV) : a - b = fsub a b := rfl

theorem FV.div_def (a b : FV) : a / b = fdiv a b := rfl

theorem FV.neg_def (a : FV) : -a = fneg a := rfl

theorem FV.fadd_zero (a : FV) : fadd a (fin 0) = a := by
  cases a <;> simp [fadd]

theorem reflectIdx_nonneg (m : ℕ) (hm : 0 < m) (i : ℤ) : 0 ≤ reflectIdx m i := by
  have h2m : (0 : ℤ) < 2 * (m : ℤ) := by positivity
  have h0 : 0 ≤ i % (2 * (m : ℤ)) := Int.emod_nonneg i (by omega)
  have h1 : i % (2 * (m : ℤ)) < 2 * (m : ℤ) := Int.emod_lt_of_pos i h2m
  unfold reflectIdx
  split <;> omega

theorem reflectIdx_lt (m : ℕ) (hm : 0 < m) (i : ℤ) : reflectIdx m i < (m : ℤ) := by
  have h2m : (0 : ℤ) < 2 * (m : ℤ) := by positivity
  have h0 : 0 ≤ i % (2 * (m : ℤ)) := Int.emod_nonneg i (by omega)
  have h1 : i % (2 * (m : ℤ)) < 2 * (m : ℤ) := Int.emod_lt_of_pos i h2m
  unfold reflectIdx
  split <;> omega

/-- An in-range index is left unchanged by `reflect` boundary handling. -/
theorem reflectIdx_of_lt (m : ℕ) (i : ℤ) (h0 : 0 ≤ i) (h1 : i < (m : ℤ)) :
    reflectIdx m i = i := by
  unfold reflectIdx
  have : i % (2 * (m : ℤ)) = i := Int.emod_eq_of_lt h0 (by omega)
  simp only [this]
  omega

theorem finIdx_coe (m : ℕ) [NeZero m] (i : Fin m) : finIdx m (i : ℤ) = i := by
  apply Fin.ext
  simp only [finIdx]
  rw [reflectIdx_of_lt m (i : ℤ) (by exact_mod_cast Nat.zero_le _) (by exact_mod_cast i.isLt)]
  simp

theorem finIdx_val (m : ℕ) [NeZero m] (i : ℤ) :
    ((finIdx m i : Fin m) : ℤ) = reflectIdx m i := by
  have hm : 0 < m := Nat.pos_of_ne_zero (NeZero.ne m)
  simp only [finIdx]
  have h0 := reflectIdx_nonneg m hm i
  omega

theorem mem_offs_iff (s : ℕ) (x : ℤ) :
    x ∈ offs s ↔ -(((s / 2 : ℕ) : ℤ)) ≤ x ∧ x ≤ (s : ℤ) - 1 - ((s / 2 : ℕ) : ℤ) := by
  unfold offs
  rw [List.mem_map]
  constructor
  · rintro ⟨t, ht, rfl⟩
    rw [List.mem_range] at ht
    omega
  · rintro ⟨h1, h2⟩
    exact ⟨(x + ((s / 2 : ℕ) : ℤ)).toNat, List.mem_range.mpr (by omega), by omega⟩

theorem mem_offsD_iff (s : ℕ) (x : ℤ) :
    x ∈ offsD s ↔ -((s : ℤ) - 1 - ((s / 2 : ℕ) : ℤ)) ≤ x ∧ x ≤ ((s / 2 : ℕ) : ℤ) := by
  unfold offsD
  rw [List.mem_map]
  constructor
  · rintro ⟨y, hy, rfl⟩
    rw [mem_offs_iff] at hy
    omega
  · rintro ⟨h1, h2⟩
    exact ⟨-x, by rw [mem_offs_iff]; omega, by omega⟩

theorem zero_mem_offs (s : ℕ) (hs : 1 ≤ s) : (0 : ℤ) ∈ offs s := by
  rw [mem_offs_iff]
  have := Nat.div_le_self s 2
  have : s / 2 < s := Nat.div_lt_self (by omega) (by omega)
  omega

theorem zero_mem_offsD (s : ℕ) (hs : 1 ≤ s) : (0 : ℤ) ∈ offsD s := by
  rw [mem_offsD_iff]
  have : s / 2 < s := Nat.div_lt_self (by omega) (by omega)
  omega

/-! ### Generic list-level helper lemmas -/

theorem foldl_fadd_all_zero (l : List FV) (h : ∀ x ∈ l, x = fin 0) :
    l.foldl fadd (fin 0) = fin 0 := by
  induction l with
  | nil => rfl
  | cons x xs ih =>
      have hx : x = fin 0 := h x (List.mem_cons_self x xs)
      have hxs : ∀ y ∈ xs, y = fin 0 := fun y hy => h y (List.mem_cons_of_mem x hy)
      simp only [List.foldl_cons, hx, fadd_zero]
      exact ih hxs

theorem fvSum_all_zero (l : List FV) (h : ∀ x ∈ l, x = fin 0) : fvSum l = fin 0 :=
  foldl_fadd_all_zero l h

theorem fmin_self (v : FV) : fmin v v = v := by
  unfold fmin
  split <;> rfl

theorem fmax_self (v : FV) : fmax v v = v := by
  unfold fmax
  split <;> rfl

theorem foldl_fmin_all_eq (l : List FV) (v : FV) (h : ∀ x ∈ l, x = v) :
    l.foldl fmin v = v := by
  induction l with
  | nil => rfl
  | cons x xs ih =>
      have hx : x = v := h x (List.mem_cons_self x xs)
      simp only [List.foldl_cons, hx, fmin_self]
      exact ih fun y hy => h y (List.mem_cons_of_mem x hy)

theorem foldl_fmax_all_eq (l : List FV) (v : FV) (h : ∀ x ∈ l, x = v) :
    l.foldl fmax v = v := by
  induction l with
  | nil => rfl
  | cons x xs ih =>
      have hx : x = v := h x (List.mem_cons_self x xs)
      simp only [List.foldl_cons, hx, fmax_self]
      exact ih fun y hy => h y (List.mem_cons_of_mem x hy)

theorem fvMinL_all_eq (l : List FV) (v : FV) (hne : l ≠ []) (h : ∀ x ∈ l, x = v) :
    fvMinL l = v := by
  cases l with
  | nil => exact absurd rfl hne
  | cons x xs =>
      have hx : x = v := h x (List.mem_cons_self x xs)
      simp only [fvMinL, hx]
      exact foldl_fmin_all_eq xs v fun y hy => h y (List.mem_cons_of_mem x hy)

theorem fvMaxL_all_eq (l : List FV) (v : FV) (hne : l ≠ []) (h : ∀ x ∈ l, x = v) :
    fvMaxL l = v := by
  cases l with
  | nil => exact absurd rfl hne
  | cons x xs =>
      have hx : x = v := h x (List.mem_cons_self x xs)
      simp only [fvMaxL, hx]
      exact foldl_fmax_all_eq xs v fun y hy => h y (List.mem_cons_of_mem x hy)

/-! ### Window and pixel-list lemmas -/

theorem mem_windowE {m n : ℕ} [NeZero m] [NeZero n] {s : ℕ} {g : Grid m n}
    {i : Fin m} {j : Fin n} {x : FV} (hx : x ∈ windowE s g i j) :
    ∃ p q, x = g p q := by
  unfold windowE at hx
  rw [List.mem_flatMap] at hx
  obtain ⟨oi, _, hx⟩ := hx
  rw [List.mem_map] at hx
  obtain ⟨oj, _, rfl⟩ := hx
  exact ⟨_, _, rfl⟩

theorem mem_windowD {m n : ℕ} [NeZero m] [NeZero n] {s : ℕ} {g : Grid m n}
    {i : Fin m} {j : Fin n} {x : FV} (hx : x ∈ windowD s g i j) :
    ∃ p q, x = g p q := by
  unfold windowD at hx
  rw [List.mem_flatMap] at hx
  obtain ⟨oi, _, hx⟩ := hx
  rw [List.mem_map] at hx
  obtain ⟨oj, _, rfl⟩ := hx
  exact ⟨_, _, rfl⟩

theorem windowE_ne_nil {m n : ℕ} [NeZero m] [NeZero n] (s : ℕ) (hs : 1 ≤ s)
    (g : Grid m n) (i : Fin m) (j : Fin n) : windowE s g i j ≠ [] := by
  apply List.ne_nil_of_mem (a := g (finIdx m ((i : ℤ) + 0)) (finIdx n ((j : ℤ) + 0)))
  unfold windowE
  rw [List.mem_flatMap]
  exact ⟨0, zero_mem_offs s hs, List.mem_map.mpr ⟨0, zero_mem_offs s hs, rfl⟩⟩

theorem windowD_ne_nil {m n : ℕ} [NeZero m] [NeZero n] (s : ℕ) (hs : 1 ≤ s)
    (g : Grid m n) (i : Fin m) (j : Fin n) : windowD s g i j ≠ [] := by
  apply List.ne_nil_of_mem (a := g (finIdx m ((i : ℤ) + 0)) (finIdx n ((j : ℤ) + 0)))
  unfold windowD
  rw [List.mem_flatMap]
  exact ⟨0, zero_mem_offsD s hs, List.mem_map.mpr ⟨0, zero_mem_offsD s hs, rfl⟩⟩

theorem mem_allPixels {m n : ℕ} {g : Grid m n} {x : FV} (hx : x ∈ allPixels g) :
    ∃ p q, x = g p q := by
  unfold allPixels at hx
  rw [List.mem_flatMap] at hx
  obtain ⟨i, _, hx⟩ := hx
  rw [List.mem_map] at hx
  obtain ⟨j, _, rfl⟩ := hx
  exact ⟨_, _, rfl⟩

theorem allPixels_ne_nil {m n : ℕ} [NeZero m] [NeZero n] (g : Grid m n) :
    allPixels g ≠ [] := by
  have hm : 0 < m := Nat.pos_of_ne_zero (NeZero.ne m)
  have hn : 0 < n := Nat.pos_of_ne_zero (NeZero.ne n)
  apply List.ne_nil_of_mem (a := g ⟨0, hm⟩ ⟨0, hn⟩)
  unfold allPixels
  rw [List.mem_flatMap]
  exact ⟨⟨0, hm⟩, List.mem_finRange _, List.mem_map.mpr ⟨⟨0, hn⟩, List.mem_finRange _, rfl⟩⟩

/-- On an all-zero log-ratio grid, `np.nanmean` is `0`. -/
theorem nanmean_zero {m n : ℕ} [NeZero m] [NeZero n] :
    nanmean (constGrid m n (fin 0)) = fin 0 := by
  simp only [nanmean]
  have hall : ∀ x ∈ (allPixels (constGrid m n (fin 0))).filter notNan, x = fin 0 := by
    intro x hx
    obtain ⟨p, q, rfl⟩ := mem_allPixels (List.mem_of_mem_filter hx)
    rfl
  have hne : (allPixels (constGrid m n (fin 0))).filter notNan ≠ [] := by
    have : (allPixels (constGrid m n (fin 0))).filter notNan
        = allPixels (constGrid m n (fin 0)) := by
      apply List.filter_eq_self.mpr
      intro x hx
      obtain ⟨p, q, rfl⟩ := mem_allPixels hx
      rfl
    rw [this]
    exact allPixels_ne_nil _
  rw [fvSum_all_zero _ hall]
  have hlen : (((allPixels (constGrid m n (fin 0))).filter notNan).length : ℚ) ≠ 0 := by
    have := List.length_pos.mpr hne
    exact_mod_cast Nat.pos_iff_ne_zero.mp this
  simp [fdiv, hlen]

/-- On an all-zero log-ratio grid, `np.nanstd` is `0` (given `√0 = 0`). -/
theorem nanstd_zero {m n : ℕ} [NeZero m] [NeZero n] (sq : ℚ → ℚ) (hsq : sq 0 = 0) :
    nanstd sq (constGrid m n (fin 0)) = fin 0 := by
  simp only [nanstd]
  rw [nanmean_zero]
  have hall : ∀ x ∈ ((allPixels (constGrid m n (fin 0))).filter notNan).map
      (fun v => fmul (fsub v (fin 0)) (fsub v (fin 0))), x = fin 0 := by
    intro x hx
    rw [List.mem_map] at hx
    obtain ⟨v, hv, rfl⟩ := hx
    obtain ⟨p, q, rfl⟩ := mem_allPixels (List.mem_of_mem_filter hv)
    show fmul (fsub (fin 0) (fin 0)) (fsub (fin 0) (fin 0)) = fin 0
    norm_num [fmul, fsub, fadd, fneg]
  rw [fvSum_all_zero _ hall]
  have hne : (allPixels (constGrid m n (fin 0))).filter notNan ≠ [] := by
    have : (allPixels (constGrid m n (fin 0))).filter notNan
        = allPixels (constGrid m n (fin 0)) := by
      apply List.filter_eq_self.mpr
      intro x hx
      obtain ⟨p, q, rfl⟩ := mem_allPixels hx
      rfl
    rw [this]
    exact allPixels_ne_nil _
  have hlen : (((allPixels (constGrid m n (fin 0))).filter notNan).length : ℚ) ≠ 0 := by
    have := List.length_pos.mpr hne
    exact_mod_cast Nat.pos_iff_ne_zero.mp this
  simp [fdiv, fsqrt, hlen, hsq]

/-- On an all-zero log-ratio grid, the adaptive threshold is `0` for every
multiplier. -/
theorem threshOf_zero {m n : ℕ} [NeZero m] [NeZero n] (sq : ℚ → ℚ) (hsq : sq 0 = 0)
    (k : ℚ) : threshOf sq k (constGrid m n (fin 0)) = fin 0 := by
  unfold threshOf
  rw [nanmean_zero, nanstd_zero sq hsq]
  norm_num [fadd, fmul]

/-- The two sequential masked assignments leave an all-zero grid
unchanged (every pixel equals the threshold `0`, so neither mask fires). -/
theorem thresholdStage_zero {m n : ℕ} [NeZero m] [NeZero n] (sq : ℚ → ℚ)
    (hsq : sq 0 = 0) (k : ℚ) :
    thresholdStage sq k (constGrid m n (fin 0)) = constGrid m n (fin 0) := by
  unfold thresholdStage
  rw [threshOf_zero sq hsq k]
  funext i j
  simp [pass1, pass2, constGrid, flt]

/-- On identical strictly positive rasters the log ratio is the all-zero
grid (each pixel is `log 1 = 0`). -/
theorem logRatio_self_pos {m n : ℕ} (lg : ℚ → ℚ) (hlg : lg 1 = 0) (g : Grid m n)
    (hpos : ∀ i j, ∃ q : ℚ, 0 < q ∧ g i j = fin q) :
    logRatio lg g g = constGrid m n (fin 0) := by
  funext i j
  obtain ⟨q, hq, hij⟩ := hpos i j
  show flog lg (fdiv (g i j) (g i j)) = fin 0
  rw [hij]
  have h1 : fdiv (fin q) (fin q) = fin 1 := by
    simp [fdiv, hq.ne', div_self]
  rw [h1]
  simp [flog, hlg]

/-- Folding `+` from an initial value computes the sum of the value
prepended to the list. -/
theorem foldl_add_eq_sum {α : Type} [AddCommMonoid α] (l : List α) (x : α) :
    l.foldl (· + ·) x = (x :: l).sum := by
  induction l generalizing x with
  | nil => simp
  | cons y t ih =>
      simp only [List.foldl_cons, ih (x + y), List.sum_cons]
      rw [add_assoc]

theorem fmin_fin (a b : ℚ) : fmin (fin a) (fin b) = fin (min a b) := by
  unfold fmin flt
  by_cases h : a < b
  · simp [h, min_eq_left h.le]
  · simp [h, min_eq_right (le_of_not_lt h)]

theorem fmax_fin (a b : ℚ) : fmax (fin a) (fin b) = fin (max a b) := by
  unfold fmax flt
  by_cases h : b < a
  · simp [h, max_eq_left h.le]
  · simp [h, max_eq_right (le_of_not_lt h)]

theorem foldl_fmin_map_fin (l : List ℚ) (a : ℚ) :
    (l.map fin).foldl fmin (fin a) = fin (l.foldl min a) := by
  induction l generalizing a with
  | nil => rfl
  | cons x xs ih => simp only [List.map_cons, List.foldl_cons, fmin_fin, ih]

theorem foldl_fmax_map_fin (l : List ℚ) (a : ℚ) :
    (l.map fin).foldl fmax (fin a) = fin (l.foldl max a) := by
  induction l generalizing a with
  | nil => rfl
  | cons x xs ih => simp only [List.map_cons, List.foldl_cons, fmax_fin, ih]

theorem fvMinL_map_fin (l : List ℚ) : fvMinL (l.map fin) = match l with
    | [] => nan
    | x :: xs => fin (xs.foldl min x) := by
  cases l with
  | nil => rfl
  | cons x xs => simp only [List.map_cons, fvMinL, foldl_fmin_map_fin]

theorem fvMaxL_map_fin (l : List ℚ) : fvMaxL (l.map fin) = match l with
    | [] => nan
    | x :: xs => fin (xs.foldl max x) := by
  cases l with
  | nil => rfl
  | cons x xs => simp only [List.map_cons, fvMaxL, foldl_fmax_map_fin]

theorem foldl_min_le_init (l : List ℚ) (a : ℚ) : l.foldl min a ≤ a := by
  induction l generalizing a with
  | nil => exact le_refl a
  | cons x xs ih => exact le_trans (ih (min a x)) (min_le_left a x)

theorem foldl_min_le_mem (l : List ℚ) (a x : ℚ) (hx : x ∈ l) : l.foldl min a ≤ x := by
  induction l generalizing a with
  | nil => cases hx
  | cons y ys ih =>
      rcases List.mem_cons.mp hx with rfl | hy
      · exact le_trans (foldl_min_le_init ys (min a x)) (min_le_right a x)
      · exact ih (min a y) hy

theorem qMinL_le_mem (l : List ℚ) (x : ℚ) (hx : x ∈ l) : qMinL l ≤ x := by
  cases l with
  | nil => cases hx
  | cons y ys =>
      rcases List.mem_cons.mp hx with rfl | hy
      · exact foldl_min_le_init ys x
      · exact foldl_min_le_mem ys y x hy

theorem foldl_max_le (l : List ℚ) (a c : ℚ) (ha : a ≤ c) (h : ∀ x ∈ l, x ≤ c) :
    l.foldl max a ≤ c := by
  induction l generalizing a with
  | nil => exact ha
  | cons y ys ih =>
      refine ih (max a y) (max_le ha (h y (List.mem_cons_self y ys))) ?_
      exact fun x hx => h x (List.mem_cons_of_mem y hx)

theorem qMaxL_le (l : List ℚ) (c : ℚ) (hne : l ≠ []) (h : ∀ x ∈ l, x ≤ c) :
    qMaxL l ≤ c := by
  cases l with
  | nil => exact absurd rfl hne
  | cons y ys =>
      exact foldl_max_le ys y c (h y (List.mem_cons_self y ys))
        fun x hx => h x (List.mem_cons_of_mem y hx)

theorem windowE_map_fin {m n : ℕ} [NeZero m] [NeZero n] (s : ℕ)
    (G : Fin m → Fin n → ℚ) (i : Fin m) (j : Fin n) :
    windowE s (fun p r => fin (G p r)) i j = (windowQE s G i j).map fin := by
  unfold windowE windowQE
  rw [List.map_flatMap]
  congr 1
  funext oi
  rw [List.map_map]
  rfl

theorem windowD_map_fin {m n : ℕ} [NeZero m] [NeZero n] (s : ℕ)
    (G : Fin m → Fin n → ℚ) (i : Fin m) (j : Fin n) :
    windowD s (fun p r => fin (G p r)) i j = (windowQD s G i j).map fin := by
  unfold windowD windowQD
  rw [List.map_flatMap]
  congr 1
  funext oi
  rw [List.map_map]
  rfl

theorem windowQE_ne_nil {m n : ℕ} [NeZero m] [NeZero n] (s : ℕ) (hs : 1 ≤ s)
    (G : Fin m → Fin n → ℚ) (i : Fin m) (j : Fin n) : windowQE s G i j ≠ [] := by
  apply List.ne_nil_of_mem (a := G (finIdx m ((i : ℤ) + 0)) (finIdx n ((j : ℤ) + 0)))
  unfold windowQE
  rw [List.mem_flatMap]
  exact ⟨0, zero_mem_offs s hs, List.mem_map.mpr ⟨0, zero_mem_offs s hs, rfl⟩⟩

theorem windowQD_ne_nil {m n : ℕ} [NeZero m] [NeZero n] (s : ℕ) (hs : 1 ≤ s)
    (G : Fin m → Fin n → ℚ) (i : Fin m) (j : Fin n) : windowQD s G i j ≠ [] := by
  apply List.ne_nil_of_mem (a := G (finIdx m ((i : ℤ) + 0)) (finIdx n ((j : ℤ) + 0)))
  unfold windowQD
  rw [List.mem_flatMap]
  exact ⟨0, zero_mem_offsD s hs, List.mem_map.mpr ⟨0, zero_mem_offsD s hs, rfl⟩⟩

/-- Central index lemma for anti-extensivity: stepping from a pixel `i` by
a dilation offset `o` and reflecting back into range lands on a pixel
whose erosion window (an erosion offset away) contains `i` again. -/
theorem reflect_key (m s : ℕ) (hm : 0 < m) (i o : ℤ)
    (hi0 : 0 ≤ i) (hi1 : i < (m : ℤ))
    (ho1 : -((s : ℤ) - 1 - ((s / 2 : ℕ) : ℤ)) ≤ o) (ho2 : o ≤ ((s / 2 : ℕ) : ℤ)) :
    -(((s / 2 : ℕ) : ℤ)) ≤ i - reflectIdx m (i + o) ∧
      i - reflectIdx m (i + o) ≤ (s : ℤ) - 1 - ((s / 2 : ℕ) : ℤ) := by
  have hρ0 : 0 ≤ reflectIdx m (i + o) := reflectIdx_nonneg m hm (i + o)
  have hρ1 : reflectIdx m (i + o) < (m : ℤ) := reflectIdx_lt m hm (i + o)
  by_cases hfree : (m : ℤ) ≤ ((s / 2 : ℕ) : ℤ)
  · omega
  · have hj1 : -(m : ℤ) ≤ i + o := by omega
    have hj2 : i + o < 2 * (m : ℤ) := by omega
    by_cases h1 : 0 ≤ i + o
    · by_cases h2 : i + o < (m : ℤ)
      · rw [reflectIdx_of_lt m (i + o) h1 h2]
        omega
      · have hmod : (i + o) % (2 * (m : ℤ)) = i + o :=
          Int.emod_eq_of_lt h1 (by omega)
        have : reflectIdx m (i + o) = 2 * (m : ℤ) - 1 - (i + o) := by
          unfold reflectIdx
          rw [hmod]
          split <;> omega
        omega
    · have hmod : (i + o) % (2 * (m : ℤ)) = i + o + 2 * (m : ℤ) := by
        have h := Int.add_mul_emod_self_left (i + o) (2 * (m : ℤ)) 1
        rw [mul_one] at h
        rw [← h]
        exact Int.emod_eq_of_lt (by omega) (by omega)
      have : reflectIdx m (i + o) = -(i + o) - 1 := by
        unfold reflectIdx
        rw [hmod]
        split <;> omega
      omega

/-- For every dilation offset `o`, the difference between a pixel index and
its reflected neighbour is an erosion offset. -/
theorem sub_reflect_mem_offs (m s : ℕ) [NeZero m] (i : Fin m) (o : ℤ)
    (ho : o ∈ offsD s) :
    ((i : ℤ) - ((finIdx m ((i : ℤ) + o) : Fin m) : ℤ)) ∈ offs s := by
  rw [mem_offsD_iff] at ho
  rw [mem_offs_iff, finIdx_val]
  exact reflect_key m s (Nat.pos_of_ne_zero (NeZero.ne m)) (i : ℤ) o
    (by exact_mod_cast Int.ofNat_nonneg i.val) (by exact_mod_cast i.isLt) ho.1 ho.2

/-- The original value at `(i, j)` occurs in the erosion window of every
reflected dilation-neighbour of `(i, j)`. -/
theorem self_mem_windowQE {m n : ℕ} [NeZero m] [NeZero n] (s : ℕ)
    (G : Fin m → Fin n → ℚ) (i : Fin m) (j : Fin n) (oi oj : ℤ)
    (hoi : oi ∈ offsD s) (hoj : oj ∈ offsD s) :
    G i j ∈ windowQE s G (finIdx m ((i : ℤ) + oi)) (finIdx n ((j : ℤ) + oj)) := by
  unfold windowQE
  rw [List.mem_flatMap]
  refine ⟨(i : ℤ) - ((finIdx m ((i : ℤ) + oi) : Fin m) : ℤ),
    sub_reflect_mem_offs m s i oi hoi, ?_⟩
  rw [List.mem_map]
  refine ⟨(j : ℤ) - ((finIdx n ((j : ℤ) + oj) : Fin n) : ℤ),
    sub_reflect_mem_offs n s j oj hoj, ?_⟩
  have hi : ((finIdx m ((i : ℤ) + oi) : Fin m) : ℤ) +
      ((i : ℤ) - ((finIdx m ((i : ℤ) + oi) : Fin m) : ℤ)) = (i : ℤ) := by ring
  have hj : ((finIdx n ((j : ℤ) + oj) : Fin n) : ℤ) +
      ((j : ℤ) - ((finIdx n ((j : ℤ) + oj) : Fin n) : ℤ)) = (j : ℤ) := by ring
  rw [hi, hj, finIdx_coe, finIdx_coe]

/-- Erosion of an all-finite grid, lowered to rational window minima. -/
theorem grey_erosion_map_fin {m n : ℕ} [NeZero m] [NeZero n] (s : ℕ) (hs : 1 ≤ s)
    (G : Fin m → Fin n → ℚ) :
    grey_erosion s (fun p r => fin (G p r)) =
      fun i j => fin (qMinL (windowQE s G i j)) := by
  funext i j
  show fvMinL (windowE s (fun p r => fin (G p r)) i j) = fin (qMinL (windowQE s G i j))
  rw [windowE_map_fin]
  rw [fvMinL_map_fin]
  rcases h : windowQE s G i j with _ | ⟨x, xs⟩
  · exact absurd h (windowQE_ne_nil s hs G i j)
  · rfl

/-- Grey opening of an all-finite grid is pointwise dominated by the
grid: the classical anti-extensivity of opening, valid with the `reflect`
boundary mode because stepping out by a dilation offset and reflecting
back stays within one erosion window. -/
theorem grey_opening_le {m n : ℕ} [NeZero m] [NeZero n] (s : ℕ) (hs : 1 ≤ s)
    (G : Fin m → Fin n → ℚ) (i : Fin m) (j : Fin n) :
    ∃ q : ℚ, grey_opening s (fun p r => fin (G p r)) i j = fin q ∧ q ≤ G i j := by
  have hero := grey_erosion_map_fin s hs G
  unfold grey_opening
  rw [hero]
  show ∃ q, fvMaxL (windowD s (fun p r => fin (qMinL (windowQE s G p r))) i j)
      = fin q ∧ q ≤ G i j
  rw [windowD_map_fin]
  rw [fvMaxL_map_fin]
  rcases h : windowQD s (fun p r => qMinL (windowQE s G p r)) i j with _ | ⟨x, xs⟩
  · exact absurd h (windowQD_ne_nil s hs _ i j)
  · refine ⟨qMaxL (x :: xs), rfl, ?_⟩
    have hall : ∀ y ∈ windowQD s (fun p r => qMinL (windowQE s G p r)) i j,
        y ≤ G i j := by
      intro y hy
      unfold windowQD at hy
      rw [List.mem_flatMap] at hy
      obtain ⟨oi, hoi, hy⟩ := hy
      rw [List.mem_map] at hy
      obtain ⟨oj, hoj, rfl⟩ := hy
      exact qMinL_le_mem _ _ (self_mem_windowQE s G i j oi oj hoi hoj)
    have := qMaxL_le _ (G i j) (h ▸ windowQD_ne_nil s hs _ i j) (h ▸ hall)
    simpa [qMaxL] using this

/-- Grey opening maps a constant grid to itself. -/
theorem grey_opening_const {m n : ℕ} [NeZero m] [NeZero n] (s : ℕ) (hs : 1 ≤ s)
    (v : FV) : grey_opening s (constGrid m n v) = constGrid m n v := by
  have hero : grey_erosion s (constGrid m n v) = constGrid m n v := by
    funext i j
    refine fvMinL_all_eq _ v (windowE_ne_nil s hs _ i j) ?_
    intro x hx
    obtain ⟨p, q, rfl⟩ := mem_windowE hx
    rfl
  unfold grey_opening
  rw [hero]
  funext i j
  refine fvMaxL_all_eq _ v (windowD_ne_nil s hs _ i j) ?_
  intro x hx
  obtain ⟨p, q, rfl⟩ := mem_windowD hx
  rfl

/-! ### Claim theorems -/

/-- C1 (code_bug evidence): binarization in the code is *not*
snapshot-based.  On the log-ratio array `[[-10,-10],[-6,-6]]` the
threshold is `-4`; the first pass `dIx[dIx < thr] = 0.0` zeroes every
pixel, after which the second pass `dIx[dIx > thr] = 1.0` sees those
written zeros (`0 > -4`) and sets every pixel to `1.0`.  The snapshot
semantics required by the claim produces the all-zero map instead. -/
theorem C1_two_pass_negative_threshold (sq : ℚ → ℚ) (hsq : sq 4 = 2) :
    thresholdStage sq 2 dNegThr = constGrid 2 2 (fin 1) ∧
    snapshotBinarize dNegThr (threshOf sq 2 dNegThr) = constGrid 2 2 (fin 0) := by
  have ht : threshOf sq 2 dNegThr = fin (-4) := by
    norm_num [threshOf, nanmean, nanstd, fvSum, allPixels, dNegThr, notNan, fsqrt,
      List.finRange, List.range, List.range.loop, List.pmap, List.filter,
      fadd, fmul, fsub, fdiv, fneg, hsq]
  constructor <;> (funext i j; fin_cases i <;> fin_cases j) <;>
    norm_num [thresholdStage, pass1, pass2, snapshotBinarize, ht, dNegThr, constGrid, flt]

/-- Witness for C1: instantiating the square-root parameter with a
function satisfying `√4 = 2` on the value actually consulted. -/
theorem C1_two_pass_negative_threshold_witness :
    (fun q : ℚ => if q = 4 then 2 else 0) 4 = 2 ∧
    thresholdStage (fun q : ℚ => if q = 4 then 2 else 0) 2 dNegThr
      = constGrid 2 2 (fin 1) := by
  exact ⟨by simp,
    (C1_two_pass_negative_threshold (fun q : ℚ => if q = 4 then 2 else 0) (by simp)).1⟩

/-- C2 (code_bug evidence): on the spec's concrete scenario
(`before = [[1,1],[1,1]]`, `after = [[2,2],[2,2]]`, `speckleWindow = 1`,
`thresholdMultiplier = 2`, `morphWindow = 1`) the code's heatmap is
all-NaN, not all-zero: `lee_filter` computes the weights as `0/0 = NaN`
on a constant raster, so both filtered rasters, the log ratio, and the
accumulated heatmap are entirely NaN — independently of the values of the
log and square-root functions, which are never consulted. -/
theorem C2_concrete_scenario_all_nan (lg sq : ℚ → ℚ) :
    accumulate lg sq 1 2 1 [gBefore, gAfter] = some (constGrid 2 2 nan) := by
  have h : cleanedMap lg sq 1 2 1 gBefore gAfter = constGrid 2 2 nan := by
    funext i j
    fin_cases i <;> fin_cases j <;>
    norm_num [cleanedMap, detectChange, thresholdStage, pass1, pass2, threshOf, logRatio,
      nanmean, nanstd, grey_opening, grey_dilation, grey_erosion, windowD, windowE,
      fvMinL, fvMaxL, fmin, fmax, flt, flog, fsqrt, notNan,
      lee_filter, uniform_filter, variance, fvMean, fvSum, allPixels, offs, offsD,
      finIdx, reflectIdx, constGrid, gBefore, gAfter, fadd, fmul, fsub, fdiv, fneg,
      List.finRange, List.range, List.range.loop, List.pmap, List.filter, Pi.mul_apply,
      Pi.add_apply, Pi.sub_apply, Pi.div_apply, FV.add_def, FV.mul_def, FV.sub_def,
      FV.div_def, FV.neg_def]
  simp [accumulate, pairMaps, consecPairs, h]

/-- C3 (code_bug evidence): a NaN pixel of the log-ratio array is *not*
mapped to `0.0` — it satisfies neither masked comparison, survives both
passes, and the final heatmap contains NaN.  Rasters `[[1,2],[3,4]]` and
`[[-1,2],[3,4]]` with `speckleWindow = 1`, `k = 2`, `morphWindow = 1`
produce the heatmap `[[NaN,0],[0,0]]`. -/
theorem C3_nan_leaks_to_heatmap (lg sq : ℚ → ℚ) (hlg : lg 1 = 0) (hsq : sq 0 = 0) :
    accumulate lg sq 1 2 1 [gPos, gNeg] = some gNanZero ∧ gNanZero 0 0 = nan := by
  have hf1 : lee_filter 1 gPos = gPos := by
    funext i j
    fin_cases i <;> fin_cases j <;>
    norm_num [lee_filter, uniform_filter, variance, fvMean, fvSum, allPixels, windowE, offs,
      finIdx, reflectIdx, constGrid, gPos, fadd, fmul, fsub, fdiv, fneg, List.finRange,
      List.range, List.range.loop, List.pmap, Pi.mul_apply, Pi.add_apply, Pi.sub_apply,
      Pi.div_apply, FV.add_def, FV.mul_def, FV.sub_def, FV.div_def, FV.neg_def]
  have hf2 : lee_filter 1 gNeg = gNeg := by
    funext i j
    fin_cases i <;> fin_cases j <;>
    norm_num [lee_filter, uniform_filter, variance, fvMean, fvSum, allPixels, windowE, offs,
      finIdx, reflectIdx, constGrid, gNeg, fadd, fmul, fsub, fdiv, fneg, List.finRange,
      List.range, List.range.loop, List.pmap, Pi.mul_apply, Pi.add_apply, Pi.sub_apply,
      Pi.div_apply, FV.add_def, FV.mul_def, FV.sub_def, FV.div_def, FV.neg_def]
  have hd : logRatio lg gPos gNeg = gNanZero := by
    funext i j
    fin_cases i <;> fin_cases j <;>
    norm_num [logRatio, gPos, gNeg, gNanZero, fdiv, flog, hlg]
  have ht : threshOf sq 2 gNanZero = fin 0 := by
    norm_num [threshOf, nanmean, nanstd, fvSum, allPixels, gNanZero, notNan, fsqrt,
      List.finRange, List.range, List.range.loop, List.pmap, List.filter,
      fadd, fmul, fsub, fdiv, fneg, hsq]
  have hth : thresholdStage sq 2 gNanZero = gNanZero := by
    funext i j
    fin_cases i <;> fin_cases j <;>
    simp [thresholdStage, pass1, pass2, ht, gNanZero, flt]
  have hop : grey_opening 1 gNanZero = gNanZero := by
    funext i j
    fin_cases i <;> fin_cases j <;>
    norm_num [grey_opening, grey_dilation, grey_erosion, windowD, windowE, fvMinL, fvMaxL,
      fmin, fmax, flt, offs, offsD, finIdx, reflectIdx, gNanZero, List.finRange,
      List.range, List.range.loop, List.pmap]
  have hcm : cleanedMap lg sq 1 2 1 gPos gNeg = gNanZero := by
    rw [cleanedMap, detectChange, hf1, hf2, hd, hth, hop]
  exact ⟨by simp [accumulate, pairMaps, consecPairs, hcm], rfl⟩

/-- Witness for C3: concrete log and square-root functions with
`lg 1 = 0` and `sq 0 = 0`. -/
theorem C3_nan_leaks_to_heatmap_witness :
    (fun _ : ℚ => (0 : ℚ)) 1 = 0 ∧ (fun _ : ℚ => (0 : ℚ)) 0 = 0 ∧
    accumulate (fun _ : ℚ => (0 : ℚ)) (fun _ : ℚ => (0 : ℚ)) 1 2 1 [gPos, gNeg]
      = some gNanZero := by
  exact ⟨rfl, rfl,
    (C3_nan_leaks_to_heatmap (fun _ => 0) (fun _ => 0) rfl rfl).1⟩

/-- C4 (code_bug evidence): the identity property of the window-1 speckle
filter fails on a flat finite raster.  On `[[1,1],[1,1]]` both the local
and the global variance are `0`, the weights are `0/0 = NaN`, and the
output is all-NaN instead of the input. -/
theorem C4_identity_fails_on_flat_raster :
    lee_filter 1 gFlat = constGrid 2 2 nan ∧ lee_filter 1 gFlat ≠ gFlat := by
  have h : lee_filter 1 gFlat = constGrid 2 2 nan := by
    funext i j
    fin_cases i <;> fin_cases j <;>
    norm_num [lee_filter, uniform_filter, variance, fvMean, fvSum, allPixels, windowE, offs,
      finIdx, reflectIdx, constGrid, gFlat, fadd, fmul, fsub, fdiv, fneg, List.finRange,
      List.range, List.range.loop, List.pmap, Pi.mul_apply, Pi.add_apply, Pi.sub_apply,
      Pi.div_apply, FV.add_def, FV.mul_def, FV.sub_def, FV.div_def, FV.neg_def]
  refine ⟨h, ?_⟩
  rw [h]
  intro hc
  have := congrFun (congrFun hc 0) 0
  simp [constGrid, gFlat] at this

/-- C5 (code_bug evidence): on a flat raster the weight denominator
`v_local + v_global` is `0` at every pixel, and the code performs the
division anyway: the weight is `0/0 = NaN` — not the mandated `0` — and
the output is NaN instead of the local mean (which is `1`). -/
theorem C5_zero_denominator_gives_nan_weight :
    lee_denominator 1 gFlat 0 0 = fin 0 ∧
    lee_weights 1 gFlat 0 0 = nan ∧
    uniform_filter 1 gFlat 0 0 = fin 1 ∧
    lee_filter 1 gFlat 0 0 = nan := by
  refine ⟨?_, ?_, ?_, ?_⟩ <;>
  norm_num [lee_denominator, lee_weights, lee_filter, uniform_filter, variance, fvMean,
    fvSum, allPixels, windowE, offs, finIdx, reflectIdx, constGrid, gFlat, fadd, fmul,
    fsub, fdiv, fneg, List.finRange, List.range, List.range.loop, List.pmap,
    Pi.mul_apply, Pi.add_apply, Pi.sub_apply, Pi.div_apply, FV.add_def, FV.mul_def,
    FV.sub_def, FV.div_def, FV.neg_def]

/-- C6 (counterexample): rasters of differing shape do not always fail —
shapes `(1,2)` and `(2,2)` differ in height, yet numpy broadcasting
accepts them and the division returns a full `(2,2)` change map. -/
theorem C6_broadcastable_shapes_do_not_fail :
    ((1, 2) : ℕ × ℕ) ≠ (2, 2) ∧ broadcastShape (1, 2) (2, 2) = some (2, 2) := by
  constructor
  · simp
  · rfl

/-- C6 (amended): the elementwise division underlying `detectChange`
raises exactly when the shapes are not broadcast-compatible, that is,
when some axis differs with neither length equal to `1`; on identical
shapes it never raises (and the result keeps that shape). -/
theorem C6_shape_error_iff_not_broadcastable (s1 s2 : ℕ × ℕ) :
    (s1 = s2 → broadcastShape s1 s2 = some s1) ∧
    (broadcastShape s1 s2 = none ↔
      (s1.1 ≠ s2.1 ∧ s1.1 ≠ 1 ∧ s2.1 ≠ 1) ∨ (s1.2 ≠ s2.2 ∧ s1.2 ≠ 1 ∧ s2.2 ≠ 1)) := by
  obtain ⟨a, b⟩ := s1
  obtain ⟨c, d⟩ := s2
  constructor
  · rintro ⟨rfl, rfl⟩
    simp [broadcastShape, broadcastDim]
  · unfold broadcastShape broadcastDim
    by_cases h1 : a = c <;> by_cases h2 : b = d <;> by_cases h3 : a = 1 <;>
      by_cases h4 : b = 1 <;> by_cases h5 : c = 1 <;> by_cases h6 : d = 1 <;>
      simp_all

/-- Witness for C6 (amended): identical shapes succeed and keep their
shape; incompatibly differing shapes fail. -/
theorem C6_shape_error_iff_not_broadcastable_witness :
    broadcastShape (2, 3) (2, 3) = some (2, 3) ∧ broadcastShape (2, 2) (3, 3) = none := by
  refine ⟨(C6_shape_error_iff_not_broadcastable (2, 3) (2, 3)).1 rfl, ?_⟩
  exact (C6_shape_error_iff_not_broadcastable (2, 2) (3, 3)).2.mpr (by norm_num)

/-- C7 (confirmed): with fewer than two rasters the pair loop never runs,
the accumulator variable is never bound, and the pipeline produces no
heatmap at all — the terminal state is the absent result `none`, not a
degenerate heatmap. -/
theorem C7_short_sequence_no_heatmap {m n : ℕ} [NeZero m] [NeZero n]
    (lg sq : ℚ → ℚ) (sw : ℕ) (k : ℚ) (mw : ℕ) (rs : List (Grid m n))
    (h : rs.length < 2) : accumulate lg sq sw k mw rs = none := by
  cases rs with
  | nil => rfl
  | cons a t =>
      cases t with
      | nil => rfl
      | cons b t2 => exact absurd h (by simp)

/-- Witness for C7: a one-raster sequence produces no heatmap. -/
theorem C7_short_sequence_no_heatmap_witness :
    [constGrid 1 1 (fin 0)].length < 2 ∧
    accumulate (fun q : ℚ => q) (fun q : ℚ => q) 3 2 3 [constGrid 1 1 (fin 0)] = none := by
  exact ⟨by decide,
    C7_short_sequence_no_heatmap (fun q => q) (fun q => q) 3 2 3 _ (by decide)⟩

/-- The accumulator on a sequence of at least two rasters folds the
per-pair maps with elementwise addition starting from the first map,
which equals their list sum. -/
theorem accumulate_cons_cons {m n : ℕ} [NeZero m] [NeZero n] (lg sq : ℚ → ℚ)
    (sw : ℕ) (k : ℚ) (mw : ℕ) (a b : Grid m n) (t : List (Grid m n)) :
    accumulate lg sq sw k mw (a :: b :: t)
      = some (pairMaps lg sq sw k mw (a :: b :: t)).sum := by
  show some ((pairMaps lg sq sw k mw (b :: t)).foldl (· + ·)
      (cleanedMap lg sq sw k mw a b)) = _
  rw [foldl_add_eq_sum]
  rfl

/-- C8 (confirmed): for any sequence of at least two rasters the heatmap
is exactly the elementwise sum of the `N-1` per-pair cleaned change maps
(each computed independently as filter → change → clean on an overlapping
consecutive pair), and — elementwise addition on grids being associative
and commutative — the sum is invariant under any reordering of those
maps.  In this exact-arithmetic model the reduction-order independence is
exact equality, not merely up to summation tolerance. -/
theorem C8_heatmap_is_sum_of_pair_maps {m n : ℕ} [NeZero m] [NeZero n]
    (lg sq : ℚ → ℚ) (sw : ℕ) (k : ℚ) (mw : ℕ) (rs : List (Grid m n))
    (h : 2 ≤ rs.length) :
    accumulate lg sq sw k mw rs = some (pairMaps lg sq sw k mw rs).sum ∧
    ∀ l2 : List (Grid m n), (pairMaps lg sq sw k mw rs).Perm l2 →
      l2.sum = (pairMaps lg sq sw k mw rs).sum := by
  cases rs with
  | nil => simp at h
  | cons a t =>
      cases t with
      | nil => simp at h
      | cons b t2 =>
          exact ⟨accumulate_cons_cons lg sq sw k mw a b t2,
            fun l2 hperm => hperm.symm.sum_eq⟩

/-- Witness for C8: a concrete two-raster sequence. -/
theorem C8_heatmap_is_sum_of_pair_maps_witness :
    (2 : ℕ) ≤ [constGrid 1 1 (fin 0), constGrid 1 1 (fin 0)].length ∧
    accumulate (fun q : ℚ => q) (fun q : ℚ => q) 1 2 1
        [constGrid 1 1 (fin 0), constGrid 1 1 (fin 0)]
      = some (pairMaps (fun q : ℚ => q) (fun q : ℚ => q) 1 2 1
        [constGrid 1 1 (fin 0), constGrid 1 1 (fin 0)]).sum := by
  exact ⟨by decide,
    (C8_heatmap_is_sum_of_pair_maps (fun q => q) (fun q => q) 1 2 1 _ (by decide)).1⟩

/-- C9 (confirmed): on a pair of identical, strictly positive rasters the
log ratio is all-zero, the adaptive threshold is `0` for every
multiplier, no pixel is strictly above it, the change map is all-zero,
and the morphologically opened map is all-zero as well. -/
theorem C9_zero_change_baseline {m n : ℕ} [NeZero m] [NeZero n]
    (lg sq : ℚ → ℚ) (k : ℚ) (mw : ℕ) (hlg : lg 1 = 0) (hsq : sq 0 = 0)
    (hmw : 1 ≤ mw) (g : Grid m n)
    (hpos : ∀ i j, ∃ q : ℚ, 0 < q ∧ g i j = fin q) :
    logRatio lg g g = constGrid m n (fin 0) ∧
    threshOf sq k (logRatio lg g g) = fin 0 ∧
    (∀ i j, flt (threshOf sq k (logRatio lg g g)) (logRatio lg g g i j) = false) ∧
    detectChange lg sq k g g = constGrid m n (fin 0) ∧
    grey_opening mw (detectChange lg sq k g g) = constGrid m n (fin 0) := by
  have hd : logRatio lg g g = constGrid m n (fin 0) := logRatio_self_pos lg hlg g hpos
  have ht : threshOf sq k (logRatio lg g g) = fin 0 := by
    rw [hd]
    exact threshOf_zero sq hsq k
  have hdc : detectChange lg sq k g g = constGrid m n (fin 0) := by
    unfold detectChange
    rw [hd]
    exact thresholdStage_zero sq hsq k
  refine ⟨hd, ht, ?_, hdc, ?_⟩
  · intro i j
    rw [ht, hd]
    simp [constGrid, flt]
  · rw [hdc]
    exact grey_opening_const mw hmw (fin 0)

/-- Witness for C9: the 1x1 raster `[[1]]` against itself, with log and
square-root functions satisfying `lg 1 = 0` and `sq 0 = 0`. -/
theorem C9_zero_change_baseline_witness :
    (fun _ : ℚ => (0 : ℚ)) 1 = 0 ∧ (fun _ : ℚ => (0 : ℚ)) 0 = 0 ∧ (1 : ℕ) ≤ 1 ∧
    (∀ i j, ∃ q : ℚ, 0 < q ∧ constGrid 1 1 (fin 1) i j = fin q) ∧
    detectChange (fun _ : ℚ => (0 : ℚ)) (fun _ : ℚ => (0 : ℚ)) 2
        (constGrid 1 1 (fin 1)) (constGrid 1 1 (fin 1)) = constGrid 1 1 (fin 0) := by
  refine ⟨rfl, rfl, le_refl 1, fun i j => ⟨1, one_pos, rfl⟩, ?_⟩
  exact (C9_zero_change_baseline (fun _ => 0) (fun _ => 0) 2 1 rfl rfl (le_refl 1)
    (constGrid 1 1 (fin 1)) (fun i j => ⟨1, one_pos, rfl⟩)).2.2.2.1

/-- C10 (confirmed): grey opening is anti-extensive on every all-finite
change map for every positive window size — the opened map is pointwise
less than or equal to the input, and in particular the cleaner never
produces `1.0` at a pixel whose thresholded input value was `0.0`. -/
theorem C10_grey_opening_anti_extensive {m n : ℕ} [NeZero m] [NeZero n]
    (s : ℕ) (hs : 1 ≤ s) (G : Fin m → Fin n → ℚ) :
    (∀ i j, ∃ q : ℚ, grey_opening s (fun p r => fin (G p r)) i j = fin q ∧ q ≤ G i j) ∧
    (∀ i j, G i j = 0 → grey_opening s (fun p r => fin (G p r)) i j ≠ fin 1) := by
  refine ⟨fun i j => grey_opening_le s hs G i j, fun i j h0 hc => ?_⟩
  obtain ⟨q, hq, hle⟩ := grey_opening_le s hs G i j
  rw [hq] at hc
  have h1 : q = 1 := by injection hc
  rw [h0, h1] at hle
  norm_num at hle

/-- Witness for C10: the all-zero 1x1 map with window size 1. -/
theorem C10_grey_opening_anti_extensive_witness :
    (1 : ℕ) ≤ 1 ∧
    (∀ i j : Fin 1, ∃ q : ℚ,
      grey_opening 1 (fun _ _ : Fin 1 => fin ((0 : ℚ))) i j = fin q ∧ q ≤ 0) := by
  exact ⟨le_refl 1,
    (C10_grey_opening_anti_extensive 1 (le_refl 1) (fun _ _ => (0 : ℚ))).1⟩
